import Mathlib

/-!
Verification of the response-generation and normalization pipeline of the
AI-Feedback web application (`src/web/src/llm.js`).

The JavaScript source is shallowly embedded: decoded JSON values become the
inductive type `JsonVal` (JS numbers are modelled as rationals, which is exact
for every value the claims touch), JS member access and JS truthiness are
modelled explicitly, and every operation of the source that can throw a
runtime `TypeError` is embedded as an `Except`-valued function.  String
operations (`toLowerCase`, `trim`, `replace`, the two regexes of
`extractJson`) are implemented directly on character lists, restricted to the
ASCII behaviour the claims exercise.
-/

/-- A decoded JavaScript JSON value (result of `JSON.parse`). -/
inductive JsonVal : Type where
  | jnull : JsonVal
  | jbool : Bool → JsonVal
  | jnum : ℚ → JsonVal
  | jstr : String → JsonVal
  | jarr : List JsonVal → JsonVal
  | jobj : List (String × JsonVal) → JsonVal

/-- The runtime errors the normalization phase can produce: a JS `TypeError`
(member access on `null`, or calling `.find` / `.toLowerCase` on a value that
lacks it). -/
inductive JsErr : Type where
  | typeError : JsErr
deriving DecidableEq, Repr

/-- Errors of the whole `parseResponse` call: the explicit
`"Failed to parse LLM response as JSON"` throw (the spec's `ParseError`), or a
runtime `TypeError` later in the function. -/
inductive NormError : Type where
  | parseError : NormError
  | typeError : NormError
deriving DecidableEq, Repr

/-- JS truthiness of a JSON value: `null`, `false`, `0` and `""` are falsy;
every other decoded value (including any array or object) is truthy. -/
def truthyV : JsonVal → Bool
  | .jnull => false
  | .jbool b => b
  | .jnum q => decide (q ≠ 0)
  | .jstr s => decide (s ≠ "")
  | .jarr _ => true
  | .jobj _ => true

/-- JS `x || d` on a possibly-undefined value (`none` models `undefined`):
the value itself when truthy, otherwise the default. -/
def orDefault (v : Option JsonVal) (d : JsonVal) : JsonVal :=
  match v with
  | some x => if truthyV x then x else d
  | none => d

/-- Field lookup in a decoded JSON object.  `JSON.parse` keeps the last
occurrence of a duplicated key, so the lookup searches from the right. -/
def lookupField (fs : List (String × JsonVal)) (k : String) : Option JsonVal :=
  match fs with
  | [] => none
  | (k', v) :: rest =>
    match lookupField rest k with
    | some r => some r
    | none => if k' = k then some v else none

/-- JS member access `v.k` for the fixed key names the source uses
(`technical_scores`, `name`, `score`, ...): on an object it yields the field
(`none` = `undefined` when absent), on `null` it throws a `TypeError`, and on
any other primitive or array it yields `undefined` (none of the source's keys
is a built-in property of those values). -/
def getMember : JsonVal → String → Except JsErr (Option JsonVal)
  | .jnull, _ => .error .typeError
  | .jobj fs, k => .ok (lookupField fs k)
  | _, _ => .ok none

/-- `p` stripped from the front of `l`, when it is a prefix. -/
def stripPre : List Char → List Char → Option (List Char)
  | [], l => some l
  | _ :: _, [] => none
  | p :: ps, c :: cs => if p = c then stripPre ps cs else none

/-- ASCII lowercasing of a character list (JS `toLowerCase` restricted to the
ASCII range the claims exercise). -/
def toLowerL (l : List Char) : List Char := l.map Char.toLower

/-- Whitespace as recognized by JS `trim` / `\s`, restricted to the common
ASCII whitespace characters plus NBSP. -/
def isWs (c : Char) : Bool :=
  c == ' ' || c == '\t' || c == '\n' || c == '\r' || c == '\x0b' ||
    c == '\x0c' || c.toNat == 160

/-- Drop leading whitespace. -/
def dropWsL : List Char → List Char
  | [] => []
  | c :: cs => if isWs c then dropWsL cs else c :: cs

/-- JS `String.prototype.trim`: whitespace removed from both ends. -/
def trimL (l : List Char) : List Char :=
  dropWsL (dropWsL l.reverse).reverse

/-- Fuelled worker for `replaceL`; every step consumes at least one input
character, so `l.length + 1` fuel always suffices. -/
def replaceFuel (p0 : Char) (ps rep : List Char) : Nat → List Char → List Char
  | 0, l => l
  | _ + 1, [] => []
  | fuel + 1, c :: cs =>
    if c = p0 then
      match stripPre ps cs with
      | some rest => rep ++ replaceFuel p0 ps rep fuel rest
      | none => c :: replaceFuel p0 ps rep fuel cs
    else c :: replaceFuel p0 ps rep fuel cs

/-- Global, left-to-right, non-overlapping replacement of the non-empty
pattern `p0 :: ps` by `rep` (JS `String.prototype.replace` with a `g`-flagged
literal regex). -/
def replaceL (p0 : Char) (ps rep l : List Char) : List Char :=
  replaceFuel p0 ps rep (l.length + 1) l

/-- The name-normalization of `matches` (`llm.js` lines 22-27): lowercase,
trim, then rewrite every occurrence of `"a.k.a."` and of `"a.k.a"` to
`"aka"`. -/
def normChars (l : List Char) : List Char :=
  replaceL 'a' ".k.a".data "aka".data
    (replaceL 'a' ".k.a.".data "aka".data (trimL (toLowerL l)))

/-- String form of the normalization. -/
def norm (s : String) : String := String.mk (normChars s.data)

/-- `matches` (`llm.js` lines 21-29): equality of the two normalized names. -/
def jsMatches (respName canonical : String) : Bool := norm respName == norm canonical

/-- `parseScore` (`llm.js` lines 31-35): `null`/`undefined` give `null`; a
number is kept exactly when it lies in [1,5]; anything else gives `null`. -/
def parseScore : Option JsonVal → Option ℚ
  | none => none
  | some .jnull => none
  | some (.jnum q) => if 1 ≤ q ∧ q ≤ 5 then some q else none
  | some _ => none

/-- `parseComment` (`llm.js` lines 37-39): a string is kept verbatim, any
other value becomes the placeholder. -/
def parseComment : Option JsonVal → String
  | some (.jstr s) => s
  | _ => "Not evaluated/not enough data"

/-- One entry of a score table in the normalized report. -/
structure ScoreEntry : Type where
  name : String
  score : Option ℚ
  comment : String
deriving DecidableEq, Repr

/-- The default entry emitted for a profile area with no matching decoded
entry (`llm.js` lines 52-56). -/
def defaultEntry (area : String) : ScoreEntry :=
  { name := area, score := none, comment := "Not evaluated/not enough data" }

/-- An assessment profile as consumed by `parseResponse`.  The optional
`personal_assessment` key of the JSON profile is modelled as a list;
`profile.personal_assessment?.length` is truthy exactly when the list is
non-empty. -/
structure Profile : Type where
  technical : List String
  non_technical : List String
  personal_assessment : List String
  overall_levels : List String
deriving DecidableEq, Repr

/-- The normalized report built by `parseResponse` (`llm.js` lines 90-98).
`candidate_name` and `overall_comment` keep whatever decoded value survived
the `||` fallback, so they are arbitrary JSON values, not necessarily
strings. -/
structure Report : Type where
  candidate_name : JsonVal
  technical_scores : List ScoreEntry
  non_technical_scores : List ScoreEntry
  personal_assessment_scores : List ScoreEntry
  overall_level : String
  overall_comment : JsonVal
  ai_evaluation : String

/-- Monadic `List.map` over `Except`, short-circuiting at the first error —
the behaviour of JS `Array.prototype.map` when the callback throws. -/
def mapEx (f : α → Except JsErr β) : List α → Except JsErr (List β)
  | [] => .ok []
  | a :: as' =>
    match f a with
    | .error e => .error e
    | .ok b =>
      match mapEx f as' with
      | .error e => .error e
      | .ok bs => .ok (b :: bs)

/-- The value `raw.find` is called on must be an array; calling `.find` on
any other (necessarily truthy, after `|| []`) value throws a `TypeError`. -/
def asArray : JsonVal → Except JsErr (List JsonVal)
  | .jarr xs => .ok xs
  | _ => .error .typeError

/-- The JS callback `(s) => matches(s.name || "", area)` evaluated on one
element: `s.name` throws on `null`; a truthy non-string name makes
`toLowerCase` throw; otherwise the normalized comparison runs. -/
def elemMatches (area : String) (s : JsonVal) : Except JsErr Bool :=
  match getMember s "name" with
  | .error e => .error e
  | .ok nv =>
    match orDefault nv (.jstr "") with
    | .jstr str => .ok (jsMatches str area)
    | _ => .error .typeError

/-- `raw.find(...)` (`llm.js` line 44): first element whose name matches the
area, scanning left to right, propagating callback throws. -/
def findMatch (area : String) : List JsonVal → Except JsErr (Option JsonVal)
  | [] => .ok none
  | s :: rest =>
    match elemMatches area s with
    | .error e => .error e
    | .ok b => if b then .ok (some s) else findMatch area rest

/-- Construction of one ScoreEntry (`llm.js` lines 45-56): the matched
entry's `score` and `comment` are filtered through `parseScore` and
`parseComment`; an unmatched area gets the default entry. -/
def mkEntry (area : String) : Option JsonVal → Except JsErr ScoreEntry
  | some f =>
    match getMember f "score" with
    | .error e => .error e
    | .ok sc =>
      match getMember f "comment" with
      | .error e => .error e
      | .ok cm => .ok { name := area, score := parseScore sc, comment := parseComment cm }
  | none => .ok (defaultEntry area)

/-- The entry produced for one profile area given the decoded array. -/
def entryFor (arr : List JsonVal) (area : String) : Except JsErr ScoreEntry :=
  match findMatch area arr with
  | .error e => .error e
  | .ok found => mkEntry area found

/-- `const raw = data[dataKey] || []` followed by the implicit requirement
that `raw.find` exists (`llm.js` lines 42-44). -/
def scoresArr (dataKey : String) (data : JsonVal) : Except JsErr (List JsonVal) :=
  match getMember data dataKey with
  | .error e => .error e
  | .ok v => asArray (orDefault v (.jarr []))

/-- `parseScores` (`llm.js` lines 41-58). -/
def parseScores (dataKey : String) (areas : List String) (data : JsonVal) :
    Except JsErr (List ScoreEntry) :=
  match scoresArr dataKey data with
  | .error e => .error e
  | .ok arr => mapEx (entryFor arr) areas

/-- `profile.overall_levels[0] || "Medior"` (`llm.js` line 84): the first
level when it exists and is a non-empty string, otherwise `"Medior"`. -/
def defaultLevelOf (levels : List String) : String :=
  match levels with
  | [] => "Medior"
  | l :: _ => if l = "" then "Medior" else l

/-- `llm.js` lines 84-88: the decoded `overall_level` survives only when it
is truthy and, after the `||` fallback, contained in `overall_levels`;
otherwise the default level is used.  A truthy non-string decoded value is
never `includes`-equal to a string, hence also falls back. -/
def parseOverallLevel (olv : Option JsonVal) (levels : List String) : String :=
  match orDefault olv (.jstr (defaultLevelOf levels)) with
  | .jstr s => if levels.contains s then s else defaultLevelOf levels
  | _ => defaultLevelOf levels

/-- The body of `parseResponse` after JSON decoding (`llm.js` lines 69-98),
with the source's evaluation order preserved. -/
def parseResponseData (data : JsonVal) (profile : Profile) (candidateName : String) :
    Except JsErr Report :=
  match parseScores "technical_scores" profile.technical data with
  | .error e => .error e
  | .ok ts =>
    match parseScores "non_technical_scores" profile.non_technical data with
    | .error e => .error e
    | .ok nts =>
      match (if profile.personal_assessment.isEmpty then Except.ok []
             else parseScores "personal_assessment_scores" profile.personal_assessment data) with
      | .error e => .error e
      | .ok pas =>
        match getMember data "overall_level" with
        | .error e => .error e
        | .ok olv =>
          match getMember data "candidate_name" with
          | .error e => .error e
          | .ok cn =>
            match getMember data "overall_comment" with
            | .error e => .error e
            | .ok oc =>
              .ok { candidate_name := orDefault cn (.jstr candidateName)
                    technical_scores := ts
                    non_technical_scores := nts
                    personal_assessment_scores := pas
                    overall_level := parseOverallLevel olv profile.overall_levels
                    overall_comment := orDefault oc (.jstr "See interview notes for details.")
                    ai_evaluation := "" }

/-- The lazy capture of the fence regex, after the opening brace: scan for
the first `}` whose tail matches `\s*` followed by three backticks; further
`}` characters are swallowed into the body only when that tail check fails,
exactly as the backtracking of `[\s\S]*?` does. -/
def lazyBody (acc : List Char) : List Char → Option (List Char)
  | [] => none
  | c :: cs =>
    if c = '}' then
      match stripPre "```".data (dropWsL cs) with
      | some _ => some (acc.reverse ++ [c])
      | none => lazyBody (c :: acc) cs
    else lazyBody (c :: acc) cs

/-- One attempt of the fence regex at a fixed start position: three
backticks, an optional literal `json`, whitespace, then the lazily captured
`{...}` body, whitespace and three closing backticks.  Each alternative of
the regex is forced here, so no further backtracking exists. -/
def fenceHere (l : List Char) : Option (List Char) :=
  match stripPre "```".data l with
  | none => none
  | some r1 =>
    match dropWsL (match stripPre "json".data r1 with
                   | some r => r
                   | none => r1) with
    | '{' :: body =>
      match lazyBody [] body with
      | some cap => some ('{' :: cap)
      | none => none
    | _ => none

/-- Leftmost match of the fence regex
(`llm.js` line 14). -/
def fenceSearch : List Char → Option (List Char)
  | [] => none
  | c :: cs =>
    match fenceHere (c :: cs) with
    | some cap => some cap
    | none => fenceSearch cs

/-- The suffix starting at the first `{` of the text. -/
def afterFirstBrace : List Char → Option (List Char)
  | [] => none
  | c :: cs => if c = '{' then some (c :: cs) else afterFirstBrace cs

/-- The prefix of the text ending at its last `}` (none when no `}`
occurs). -/
def upToLastClose : List Char → Option (List Char)
  | [] => none
  | c :: cs =>
    match upToLastClose cs with
    | some r => some (c :: r)
    | none => if c = '}' then some [c] else none

/-- The greedy regex `(\{[\s\S]*\})` (`llm.js` line 16): the span from the
first `{` of the text to its last `}`, provided that `}` lies strictly after
the `{`. -/
def braceSpan (l : List Char) : Option (List Char) :=
  match afterFirstBrace l with
  | some ('{' :: rest) =>
    match upToLastClose rest with
    | some r => some ('{' :: r)
    | none => none
  | _ => none

/-- `extractJson` (`llm.js` lines 12-19): fenced block first, then the
greedy brace span, then the whole trimmed text. -/
def extractJson (text : String) : String :=
  match fenceSearch (trimL text.data) with
  | some cap => String.mk cap
  | none =>
    match braceSpan (trimL text.data) with
    | some cap => String.mk cap
    | none => String.mk (trimL text.data)

/-- The string actually decoded (`llm.js` line 64): `jsonStr || "{}"` — the
extracted candidate, with the empty string replaced by `"{}"`. -/
def jsonCandidate (content : String) : String :=
  if extractJson content = "" then "\x7b\x7d" else extractJson content

/-- JSON whitespace (`JSON.parse` accepts exactly space, tab, LF, CR between
tokens). -/
def skipWsJ : List Char → List Char
  | [] => []
  | c :: cs => if c == ' ' || c == '\t' || c == '\n' || c == '\r' then skipWsJ cs else c :: cs

/-- Value of one hexadecimal digit. -/
def hexVal (c : Char) : Option Nat :=
  if c.isDigit then some (c.toNat - 48)
  else if 'a' ≤ c ∧ c ≤ 'f' then some (c.toNat - 87)
  else if 'A' ≤ c ∧ c ≤ 'F' then some (c.toNat - 55)
  else none

/-- Body of a JSON string literal, after the opening quote (fuelled). -/
def jparseStrAux : Nat → List Char → List Char → Option (List Char × List Char)
  | 0, _, _ => none
  | fuel + 1, acc, l =>
    match l with
    | [] => none
    | c :: cs =>
      if c = '"' then some (acc.reverse, cs)
      else if c = '\\' then
        match cs with
        | [] => none
        | e :: cs2 =>
          if e = '"' then jparseStrAux fuel ('"' :: acc) cs2
          else if e = '\\' then jparseStrAux fuel ('\\' :: acc) cs2
          else if e = '/' then jparseStrAux fuel ('/' :: acc) cs2
          else if e = 'b' then jparseStrAux fuel ('\x08' :: acc) cs2
          else if e = 'f' then jparseStrAux fuel ('\x0c' :: acc) cs2
          else if e = 'n' then jparseStrAux fuel ('\n' :: acc) cs2
          else if e = 'r' then jparseStrAux fuel ('\r' :: acc) cs2
          else if e = 't' then jparseStrAux fuel ('\t' :: acc) cs2
          else if e = 'u' then
            match cs2 with
            | h1 :: h2 :: h3 :: h4 :: cs3 =>
              match hexVal h1, hexVal h2, hexVal h3, hexVal h4 with
              | some a, some b, some c2, some d =>
                jparseStrAux fuel (Char.ofNat (a * 4096 + b * 256 + c2 * 16 + d) :: acc) cs3
              | _, _, _, _ => none
            | _ => none
          else none
      else if c.toNat < 32 then none
      else jparseStrAux fuel (c :: acc) cs

/-- Longest digit prefix and the rest. -/
def digitsOf : List Char → List Char × List Char
  | [] => ([], [])
  | c :: cs =>
    if c.isDigit then
      match digitsOf cs with
      | (d, r) => (c :: d, r)
    else ([], c :: cs)

/-- Numeric value of a digit list. -/
def natOfDigits (ds : List Char) : Nat :=
  ds.foldl (fun n c => n * 10 + (c.toNat - 48)) 0

/-- Optional fraction part `.` digits of a JSON number. -/
def parseFrac : List Char → Option (List Char × List Char)
  | '.' :: r =>
    match digitsOf r with
    | ([], _) => none
    | (ds, rest) => some (ds, rest)
  | l => some ([], l)

/-- Optional exponent part of a JSON number. -/
def parseExp : List Char → Option (Int × List Char)
  | [] => some (0, [])
  | c :: r =>
    if c = 'e' ∨ c = 'E' then
      match r with
      | '+' :: r2 =>
        match digitsOf r2 with
        | ([], _) => none
        | (ds, rest) => some ((natOfDigits ds : Int), rest)
      | '-' :: r2 =>
        match digitsOf r2 with
        | ([], _) => none
        | (ds, rest) => some (-(natOfDigits ds : Int), rest)
      | r2 =>
        match digitsOf r2 with
        | ([], _) => none
        | (ds, rest) => some ((natOfDigits ds : Int), rest)
    else some (0, c :: r)

/-- A JSON number literal (grammar of `JSON.parse`: optional minus, integer
part without redundant leading zero, optional fraction and exponent),
evaluated exactly as a rational. -/
def jparseNum (l : List Char) : Option (ℚ × List Char) :=
  match (match l with | '-' :: r => (true, r) | _ => (false, l)) with
  | (neg, l1) =>
    match l1 with
    | [] => none
    | c :: cs =>
      if c.isDigit then
        match (if c = '0' then (['0'], cs) else digitsOf (c :: cs)) with
        | (ip, r1) =>
          match parseFrac r1 with
          | none => none
          | some (fp, r2) =>
            match parseExp r2 with
            | none => none
            | some (ex, r3) =>
              some ((if 0 ≤ ex then
                       mkRat ((if neg then -(natOfDigits (ip ++ fp) : Int)
                               else (natOfDigits (ip ++ fp) : Int)) * ((10 : Nat) ^ ex.toNat : Nat))
                         ((10 : Nat) ^ fp.length)
                     else
                       mkRat (if neg then -(natOfDigits (ip ++ fp) : Int)
                              else (natOfDigits (ip ++ fp) : Int))
                         ((10 : Nat) ^ fp.length * (10 : Nat) ^ (-ex).toNat)),
                    r3)
      else none

mutual

/-- A JSON value (fuelled recursive-descent model of `JSON.parse`); the
input must start directly at the value. -/
def jparseVal : Nat → List Char → Option (JsonVal × List Char)
  | 0, _ => none
  | fuel + 1, l =>
    match l with
    | [] => none
    | c :: cs =>
      if c = '{' then
        match skipWsJ cs with
        | '}' :: rest => some (.jobj [], rest)
        | cs2 => jparseMembers fuel [] cs2
      else if c = '[' then
        match skipWsJ cs with
        | ']' :: rest => some (.jarr [], rest)
        | cs2 => jparseItems fuel [] cs2
      else if c = '"' then
        match jparseStrAux (cs.length + 1) [] cs with
        | some (s, r) => some (.jstr (String.mk s), r)
        | none => none
      else if c = 't' then
        match stripPre "rue".data cs with
        | some r => some (.jbool true, r)
        | none => none
      else if c = 'f' then
        match stripPre "alse".data cs with
        | some r => some (.jbool false, r)
        | none => none
      else if c = 'n' then
        match stripPre "ull".data cs with
        | some r => some (.jnull, r)
        | none => none
      else
        match jparseNum (c :: cs) with
        | some (q, r) => some (.jnum q, r)
        | none => none

/-- Members of a JSON object after at least one is required. -/
def jparseMembers : Nat → List (String × JsonVal) → List Char → Option (JsonVal × List Char)
  | 0, _, _ => none
  | fuel + 1, acc, l =>
    match l with
    | '"' :: cs =>
      match jparseStrAux (cs.length + 1) [] cs with
      | none => none
      | some (k, r1) =>
        match skipWsJ r1 with
        | ':' :: r2 =>
          match jparseVal fuel (skipWsJ r2) with
          | none => none
          | some (v, r3) =>
            match skipWsJ r3 with
            | ',' :: r4 => jparseMembers fuel ((String.mk k, v) :: acc) (skipWsJ r4)
            | '}' :: r4 => some (.jobj ((String.mk k, v) :: acc).reverse, r4)
            | _ => none
        | _ => none
    | _ => none

/-- Items of a JSON array after at least one is required. -/
def jparseItems : Nat → List JsonVal → List Char → Option (JsonVal × List Char)
  | 0, _, _ => none
  | fuel + 1, acc, l =>
    match jparseVal fuel l with
    | none => none
    | some (v, r) =>
      match skipWsJ r with
      | ',' :: r2 => jparseItems fuel (v :: acc) (skipWsJ r2)
      | ']' :: r2 => some (.jarr (v :: acc).reverse, r2)
      | _ => none

end

/-- `JSON.parse` on a whole string: surrounding whitespace allowed, the
complete input must be consumed. -/
def jsonParse (s : String) : Option JsonVal :=
  match jparseVal (s.data.length + 1) (skipWsJ s.data) with
  | some (v, rest) => if skipWsJ rest = [] then some v else none
  | none => none

/-- `parseResponse` (`llm.js` lines 60-99): extract a candidate, decode it
(`ParseError` on failure), then normalize; any JS `TypeError` of the
normalization phase escapes as `NormError.typeError`. -/
def parseResponse (content : String) (profile : Profile) (candidateName : String) :
    Except NormError Report :=
  match jsonParse (jsonCandidate content) with
  | none => .error .parseError
  | some data =>
    match parseResponseData data profile candidateName with
    | .error _ => .error .typeError
    | .ok r => .ok r

/-- The two backend adapters of `llm.js`. -/
inductive Backend : Type where
  | webllm : Backend
  | api : Backend
deriving DecidableEq, Repr

/-- `generateFeedback` (`llm.js` lines 183-195): `const { mode = "webllm" } =
options; if (mode === "api") ...` — the remote adapter is chosen exactly for
the mode string `"api"`; an absent mode defaults to `"webllm"`, and any other
mode string also selects the in-browser WebLLM adapter. -/
def selectBackend (mode : Option String) : Backend :=
  match mode with
  | none => .webllm
  | some m => if m = "api" then .api else .webllm

/-- JS truthiness of a possibly-undefined value. -/
def truthyOpt : Option JsonVal → Bool
  | none => false
  | some v => truthyV v

/-- Modelled from the spec: the "first top-level `{...}` span" of §4.3
step 1, read as the first balanced brace group of the text — the comparison
definition for the extraction refinement; `extractJson` itself uses the
greedy `braceSpan`. -/
def balancedSpan (depth : Nat) (acc : List Char) : List Char → Option (List Char)
  | [] => none
  | c :: cs =>
    if c = '{' then balancedSpan (depth + 1) (c :: acc) cs
    else if c = '}' then
      match depth with
      | 0 => none
      | 1 => some (c :: acc).reverse
      | d + 2 => balancedSpan (d + 1) (c :: acc) cs
    else balancedSpan depth (c :: acc) cs

/-- Modelled from the spec: the first top-level `{...}` span — the balanced
group opened by the first `{` of the text. -/
def firstTopLevelSpan (l : List Char) : Option (List Char) :=
  match afterFirstBrace l with
  | some ('{' :: rest) => balancedSpan 1 ['{'] rest
  | _ => none
theorem stripPre_length {p l r : List Char} (h : stripPre p l = some r) :
    r.length ≤ l.length := by
  induction p generalizing l with
  | nil =>
    simp only [stripPre, Option.some.injEq] at h
    simp [h]
  | cons p ps ih =>
    cases l with
    | nil => simp [stripPre] at h
    | cons c cs =>
      simp only [stripPre] at h
      split at h
      · exact Nat.le_succ_of_le (ih h)
      · simp at h

theorem stripPre_append {p l r : List Char} (h : stripPre p l = some r) :
    l = p ++ r := by
  induction p generalizing l with
  | nil =>
    simp only [stripPre, Option.some.injEq] at h
    simp [h]
  | cons p ps ih =>
    cases l with
    | nil => simp [stripPre] at h
    | cons c cs =>
      simp only [stripPre] at h
      split at h
      · rename_i hpc
        simp [hpc, ih h]
      · simp at h


theorem dropWsL_subset {a : Char} {l : List Char} (h : a ∈ dropWsL l) : a ∈ l := by
  induction l with
  | nil => simp [dropWsL] at h
  | cons c cs ih =>
    simp only [dropWsL] at h
    split at h
    · exact List.mem_cons_of_mem c (ih h)
    · exact h

theorem parseScore_bounds {v : Option JsonVal} {q : ℚ} (h : parseScore v = some q) :
    1 ≤ q ∧ q ≤ 5 := by
  match v with
  | none => simp [parseScore] at h
  | some .jnull => simp [parseScore] at h
  | some (.jbool b) => simp [parseScore] at h
  | some (.jnum x) =>
    simp only [parseScore] at h
    split at h
    · rename_i hx
      cases h
      exact hx
    · simp at h
  | some (.jstr s) => simp [parseScore] at h
  | some (.jarr xs) => simp [parseScore] at h
  | some (.jobj fs) => simp [parseScore] at h

theorem mkEntry_name {area : String} {f : Option JsonVal} {e : ScoreEntry}
    (h : mkEntry area f = .ok e) : e.name = area := by
  match f with
  | none =>
    simp only [mkEntry, Except.ok.injEq] at h
    simp [← h, defaultEntry]
  | some v =>
    simp only [mkEntry] at h
    split at h
    · simp at h
    · split at h
      · simp at h
      · simp only [Except.ok.injEq] at h
        simp [← h]

theorem mkEntry_score {area : String} {f : Option JsonVal} {e : ScoreEntry} {q : ℚ}
    (h : mkEntry area f = .ok e) (hs : e.score = some q) : 1 ≤ q ∧ q ≤ 5 := by
  match f with
  | none =>
    simp only [mkEntry, Except.ok.injEq] at h
    rw [← h] at hs
    simp [defaultEntry] at hs
  | some v =>
    simp only [mkEntry] at h
    split at h
    · simp at h
    · split at h
      · simp at h
      · simp only [Except.ok.injEq] at h
        rw [← h] at hs
        exact parseScore_bounds hs

theorem entryFor_name {arr : List JsonVal} {area : String} {e : ScoreEntry}
    (h : entryFor arr area = .ok e) : e.name = area := by
  simp only [entryFor] at h
  split at h
  · simp at h
  · exact mkEntry_name h

theorem entryFor_score {arr : List JsonVal} {area : String} {e : ScoreEntry} {q : ℚ}
    (h : entryFor arr area = .ok e) (hs : e.score = some q) : 1 ≤ q ∧ q ≤ 5 := by
  simp only [entryFor] at h
  split at h
  · simp at h
  · exact mkEntry_score h hs

theorem mapEx_length {f : α → Except JsErr β} {l : List α} {bs : List β}
    (h : mapEx f l = .ok bs) : bs.length = l.length := by
  induction l generalizing bs with
  | nil =>
    simp only [mapEx, Except.ok.injEq] at h
    simp [← h]
  | cons a as' ih =>
    cases hfa : f a with
    | error e => simp [mapEx, hfa] at h
    | ok b0 =>
      cases hrest : mapEx f as' with
      | error e => simp [mapEx, hfa, hrest] at h
      | ok bs' =>
        simp only [mapEx, hfa, hrest, Except.ok.injEq] at h
        subst h
        simp [ih hrest]

theorem mapEx_mem {f : α → Except JsErr β} {l : List α} {bs : List β} {b : β}
    (h : mapEx f l = .ok bs) (hb : b ∈ bs) : ∃ a ∈ l, f a = .ok b := by
  induction l generalizing bs with
  | nil =>
    simp only [mapEx, Except.ok.injEq] at h
    subst h
    simp at hb
  | cons a as' ih =>
    cases hfa : f a with
    | error e => simp [mapEx, hfa] at h
    | ok b0 =>
      cases hrest : mapEx f as' with
      | error e => simp [mapEx, hfa, hrest] at h
      | ok bs' =>
        simp only [mapEx, hfa, hrest, Except.ok.injEq] at h
        subst h
        rcases List.mem_cons.mp hb with hb1 | hb1
        · exact ⟨a, List.mem_cons_self a as', hb1 ▸ hfa⟩
        · rcases ih hrest hb1 with ⟨a2, ha2, hfa2⟩
          exact ⟨a2, List.mem_cons_of_mem a ha2, hfa2⟩

theorem mapEx_get {f : α → Except JsErr β} {l : List α} {bs : List β}
    (h : mapEx f l = .ok bs) (i : ℕ) (hi : i < l.length) (hbi : i < bs.length) :
    f (l.get ⟨i, hi⟩) = .ok (bs.get ⟨i, hbi⟩) := by
  induction l generalizing bs i with
  | nil => simp at hi
  | cons a as' ih =>
    cases hfa : f a with
    | error e => simp [mapEx, hfa] at h
    | ok b0 =>
      cases hrest : mapEx f as' with
      | error e => simp [mapEx, hfa, hrest] at h
      | ok bs' =>
        simp only [mapEx, hfa, hrest, Except.ok.injEq] at h
        subst h
        match i with
        | 0 => simpa using hfa
        | n + 1 =>
          simp only [List.get_cons_succ]
          exact ih hrest n (Nat.lt_of_succ_lt_succ hi) (Nat.lt_of_succ_lt_succ hbi)

theorem parseScores_names {dataKey : String} {areas : List String} {data : JsonVal}
    {entries : List ScoreEntry} (h : parseScores dataKey areas data = .ok entries) :
    entries.map ScoreEntry.name = areas := by
  simp only [parseScores] at h
  cases harr : scoresArr dataKey data with
  | error e => rw [harr] at h; simp at h
  | ok arr =>
    rw [harr] at h
    have hlen : entries.length = areas.length := mapEx_length h
    apply List.ext_get (by simp [hlen])
    intro i h1 h2
    have h1' : i < entries.length := by simpa using h1
    have h2' : i < areas.length := h2
    have := mapEx_get h i h2' h1'
    have hname := entryFor_name this
    simp only [List.get_eq_getElem] at hname ⊢
    simp [hname]

theorem parseScores_score_range {dataKey : String} {areas : List String} {data : JsonVal}
    {entries : List ScoreEntry} {e : ScoreEntry} {q : ℚ}
    (h : parseScores dataKey areas data = .ok entries) (he : e ∈ entries)
    (hq : e.score = some q) : 1 ≤ q ∧ q ≤ 5 := by
  simp only [parseScores] at h
  cases harr : scoresArr dataKey data with
  | error e2 => rw [harr] at h; simp at h
  | ok arr =>
    rw [harr] at h
    rcases mapEx_mem h he with ⟨a, _, hfa⟩
    exact entryFor_score hfa hq

theorem mapEx_entryFor_nil (areas : List String) :
    mapEx (entryFor []) areas = .ok (areas.map defaultEntry) := by
  induction areas with
  | nil => rfl
  | cons a as' ih => simp [mapEx, entryFor, findMatch, mkEntry, ih]

theorem parseScores_missing_key {dataKey : String} (areas : List String)
    {fs : List (String × JsonVal)} (hk : lookupField fs dataKey = none) :
    parseScores dataKey areas (.jobj fs) = .ok (areas.map defaultEntry) := by
  simp [parseScores, scoresArr, getMember, hk, orDefault, asArray, mapEx_entryFor_nil]

theorem parseResponseData_ok {data : JsonVal} {p : Profile} {nm : String} {r : Report}
    (h : parseResponseData data p nm = .ok r) :
    ∃ ts nts pas olv cn oc,
      parseScores "technical_scores" p.technical data = .ok ts ∧
      parseScores "non_technical_scores" p.non_technical data = .ok nts ∧
      (if p.personal_assessment.isEmpty then Except.ok []
       else parseScores "personal_assessment_scores" p.personal_assessment data) = .ok pas ∧
      getMember data "overall_level" = .ok olv ∧
      getMember data "candidate_name" = .ok cn ∧
      getMember data "overall_comment" = .ok oc ∧
      r = { candidate_name := orDefault cn (.jstr nm)
            technical_scores := ts
            non_technical_scores := nts
            personal_assessment_scores := pas
            overall_level := parseOverallLevel olv p.overall_levels
            overall_comment := orDefault oc (.jstr "See interview notes for details.")
            ai_evaluation := "" } := by
  simp only [parseResponseData] at h
  cases h1 : parseScores "technical_scores" p.technical data with
  | error e => rw [h1] at h; simp at h
  | ok ts =>
    rw [h1] at h
    cases h2 : parseScores "non_technical_scores" p.non_technical data with
    | error e => rw [h2] at h; simp at h
    | ok nts =>
      rw [h2] at h
      cases h3 : (if p.personal_assessment.isEmpty then Except.ok []
                  else parseScores "personal_assessment_scores" p.personal_assessment data) with
      | error e => rw [h3] at h; simp at h
      | ok pas =>
        rw [h3] at h
        cases h4 : getMember data "overall_level" with
        | error e => rw [h4] at h; simp at h
        | ok olv =>
          rw [h4] at h
          cases h5 : getMember data "candidate_name" with
          | error e => rw [h5] at h; simp at h
          | ok cn =>
            rw [h5] at h
            cases h6 : getMember data "overall_comment" with
            | error e => rw [h6] at h; simp at h
            | ok oc =>
              rw [h6] at h
              simp only [Except.ok.injEq] at h
              exact ⟨ts, nts, pas, olv, cn, oc, rfl, rfl, rfl, rfl, rfl, rfl, h.symm⟩

/-- Claim C3: a decoded score value is kept verbatim exactly when it is a
number in [1,5] inclusive; every non-numeric value and every number outside
[1,5] yields a null score (no clamping, no rounding). -/
theorem claim3_parseScore_verbatim :
    (∀ v : Option JsonVal, (∀ q : ℚ, v ≠ some (.jnum q)) → parseScore v = none) ∧
    (∀ q : ℚ, ¬(1 ≤ q ∧ q ≤ 5) → parseScore (some (.jnum q)) = none) ∧
    (∀ q : ℚ, 1 ≤ q → q ≤ 5 → parseScore (some (.jnum q)) = some q) := by
  refine ⟨?_, ?_, ?_⟩
  · intro v hv
    match v with
    | none => rfl
    | some .jnull => rfl
    | some (.jbool b) => rfl
    | some (.jnum q) => exact absurd rfl (hv q)
    | some (.jstr s) => rfl
    | some (.jarr xs) => rfl
    | some (.jobj fs) => rfl
  · intro q hq
    simp [parseScore, hq]
  · intro q h1 h2
    simp [parseScore, h1, h2]

theorem claim3_witness :
    parseScore (some (.jstr "4")) = none ∧
    parseScore (some (.jnum 7)) = none ∧
    parseScore (some (.jnum 3)) = some 3 :=
  ⟨claim3_parseScore_verbatim.1 (some (.jstr "4")) (fun q h => by cases h),
   claim3_parseScore_verbatim.2.1 7 (by norm_num),
   claim3_parseScore_verbatim.2.2 3 (by norm_num) (by norm_num)⟩

/-- Claim C4: name matching is equality under the normalization `norm`
(lowercase, trim surrounding whitespace, rewrite the a.k.a. token to aka) —
not substring matching: `" Communication "` matches `"Communication"`, while
`"Comms (a.k.a. Communication)"` does not match `"Communication"`. -/
theorem claim4_matching_is_normalized_equality :
    (∀ r c : String, jsMatches r c = true ↔ norm r = norm c) ∧
    jsMatches " Communication " "Communication" = true ∧
    jsMatches "Comms (a.k.a. Communication)" "Communication" = false ∧
    jsMatches " A.K.A. Xy " "a.k.a. xy" = true := by
  refine ⟨?_, by rfl, by rfl, by rfl⟩
  intro r c
  simp [jsMatches]

theorem claim4_witness : jsMatches "ABC" "abc" = true :=
  (claim4_matching_is_normalized_equality.1 "ABC" "abc").mpr (by rfl)

/-- Claim C7 (counterexample): the mode flag value `"remote"` does not select
the Remote-API adapter — the source compares the mode against `"api"`, so
`"remote"` falls through to the WebLLM (local) adapter. -/
theorem claim7_counterexample :
    selectBackend (some "remote") = Backend.webllm ∧ Backend.webllm ≠ Backend.api :=
  ⟨rfl, by decide⟩

/-- Claim C7 (amended): the mode flag's values are `"webllm"` and `"api"`:
`"api"` selects the Remote-API adapter, an absent mode defaults to the
WebLLM (local) adapter, and any mode other than `"api"` also selects the
WebLLM adapter. -/
theorem claim7_mode_selection :
    selectBackend none = Backend.webllm ∧
    selectBackend (some "api") = Backend.api ∧
    (∀ m : String, m ≠ "api" → selectBackend (some m) = Backend.webllm) := by
  refine ⟨rfl, rfl, ?_⟩
  intro m hm
  simp [selectBackend, hm]

theorem claim7_witness : selectBackend (some "webllm") = Backend.webllm :=
  claim7_mode_selection.2.2 "webllm" (by decide)

/-- Claim C1 (counterexample): on the decoded object `{"technical_scores": 5}`
normalization does not produce a report at all — `(5).find` is not a
function, so a JS `TypeError` is thrown, both at the decoded level and
through the whole `parseResponse` pipeline. -/
theorem claim1_counterexample :
    parseResponseData (.jobj [("technical_scores", .jnum 5)]) ⟨["A"], [], [], ["J"]⟩ "X" =
      .error JsErr.typeError ∧
    parseResponse "\x7b\"technical_scores\":5\x7d" ⟨["A"], [], [], ["J"]⟩ "X" =
      .error NormError.typeError :=
  ⟨by rfl, by rfl⟩

/-- Claim C1 (amended): whenever score reconciliation completes without a
runtime TypeError (in particular whenever the category key is absent from the
decoded object), the output has exactly one entry per profile area, named by
the profile's list in the profile's order, and every area whose `findMatch`
over the decoded array comes back empty gets the default (null score,
placeholder comment) entry; at the report level the three categories carry
the names of the three profile lists. -/
theorem claim1_scores_shape :
    (∀ (dataKey : String) (areas : List String) (data : JsonVal)
        (arr : List JsonVal) (entries : List ScoreEntry),
        scoresArr dataKey data = .ok arr →
        parseScores dataKey areas data = .ok entries →
        entries.map ScoreEntry.name = areas ∧
        ∀ (i : ℕ) (hi : i < areas.length) (hi2 : i < entries.length),
          findMatch (areas.get ⟨i, hi⟩) arr = .ok none →
          entries.get ⟨i, hi2⟩ = defaultEntry (areas.get ⟨i, hi⟩)) ∧
    (∀ (dataKey : String) (areas : List String) (fs : List (String × JsonVal)),
        lookupField fs dataKey = none →
        parseScores dataKey areas (.jobj fs) = .ok (areas.map defaultEntry)) ∧
    (∀ (data : JsonVal) (p : Profile) (nm : String) (r : Report),
        parseResponseData data p nm = .ok r →
        r.technical_scores.map ScoreEntry.name = p.technical ∧
        r.non_technical_scores.map ScoreEntry.name = p.non_technical ∧
        (p.personal_assessment.isEmpty = true → r.personal_assessment_scores = []) ∧
        (p.personal_assessment.isEmpty = false →
          r.personal_assessment_scores.map ScoreEntry.name = p.personal_assessment)) := by
  refine ⟨?_, ?_, ?_⟩
  · intro dataKey areas data arr entries harr h
    refine ⟨parseScores_names h, ?_⟩
    intro i hi hi2 hfm
    simp only [parseScores, harr] at h
    have hget := mapEx_get h i hi hi2
    simp only [entryFor, hfm, mkEntry, Except.ok.injEq] at hget
    exact hget.symm
  · intro dataKey areas fs hk
    exact parseScores_missing_key areas hk
  · intro data p nm r h
    rcases parseResponseData_ok h with ⟨ts, nts, pas, olv, cn, oc, h1, h2, h3, _, _, _, hr⟩
    subst hr
    refine ⟨parseScores_names h1, parseScores_names h2, ?_, ?_⟩
    · intro hemp
      rw [hemp] at h3
      simp only [if_true, Except.ok.injEq] at h3
      simp [← h3]
    · intro hemp
      rw [hemp] at h3
      simp only [if_false, Bool.false_eq_true] at h3
      exact parseScores_names h3

theorem claim1_witness :
    ([defaultEntry "A", { name := "B", score := some 4, comment := "ok" }] : List ScoreEntry).map
        ScoreEntry.name = ["A", "B"] ∧
    ([defaultEntry "A", { name := "B", score := some 4, comment := "ok" }] : List ScoreEntry).get
        ⟨0, by decide⟩ = defaultEntry "A" := by
  have h := claim1_scores_shape.1 "technical_scores" ["A", "B"]
      (.jobj [("technical_scores",
               .jarr [.jobj [("name", .jstr "b"), ("score", .jnum 4), ("comment", .jstr "ok")]])])
      [.jobj [("name", .jstr "b"), ("score", .jnum 4), ("comment", .jstr "ok")]]
      [defaultEntry "A", { name := "B", score := some 4, comment := "ok" }]
      rfl rfl
  exact ⟨h.1, h.2 0 (by decide) (by decide) rfl⟩

/-- Claim C8 (counterexample): the decoded score 3.5 is kept verbatim — the
resulting ScoreEntry's score is 7/2, which is not an integer (denominator 2),
so scores are not restricted to integers. -/
theorem claim8_counterexample :
    parseResponse "\x7b\"technical_scores\":[\x7b\"name\":\"A\",\"score\":3.5,\"comment\":\"x\"\x7d]\x7d"
      ⟨["A"], [], [], ["J"]⟩ "X" =
      .ok { candidate_name := .jstr "X",
            technical_scores := [{ name := "A", score := some (mkRat 7 2), comment := "x" }],
            non_technical_scores := [],
            personal_assessment_scores := [],
            overall_level := "J",
            overall_comment := .jstr "See interview notes for details.",
            ai_evaluation := "" } ∧
    (mkRat 7 2).den ≠ 1 :=
  ⟨by rfl, by decide⟩

/-- Claim C8 (amended): in every report the normalizer returns, every
ScoreEntry's score is either null or a number between 1 and 5 inclusive (not
necessarily an integer). -/
theorem claim8_score_range :
    ∀ (data : JsonVal) (p : Profile) (nm : String) (r : Report),
      parseResponseData data p nm = .ok r →
      ∀ e : ScoreEntry,
        (e ∈ r.technical_scores ∨ e ∈ r.non_technical_scores ∨
         e ∈ r.personal_assessment_scores) →
        ∀ q : ℚ, e.score = some q → 1 ≤ q ∧ q ≤ 5 := by
  intro data p nm r h e he q hq
  rcases parseResponseData_ok h with ⟨ts, nts, pas, olv, cn, oc, h1, h2, h3, _, _, _, hr⟩
  subst hr
  rcases he with he | he | he
  · exact parseScores_score_range h1 he hq
  · exact parseScores_score_range h2 he hq
  · by_cases hemp : p.personal_assessment.isEmpty
    · rw [hemp] at h3
      simp only [if_true, Except.ok.injEq] at h3
      rw [← h3] at he
      simp at he
    · rw [Bool.of_not_eq_true hemp] at h3
      simp only [if_false, Bool.false_eq_true] at h3
      exact parseScores_score_range h3 he hq

theorem claim8_witness : (1 : ℚ) ≤ 4 ∧ (4 : ℚ) ≤ 5 :=
  claim8_score_range
    (.jobj [("technical_scores",
             .jarr [.jobj [("name", .jstr "A"), ("score", .jnum 4), ("comment", .jstr "ok")]])])
    ⟨["A"], [], [], ["J"]⟩ "X"
    { candidate_name := .jstr "X",
      technical_scores := [{ name := "A", score := some 4, comment := "ok" }],
      non_technical_scores := [],
      personal_assessment_scores := [],
      overall_level := "J",
      overall_comment := .jstr "See interview notes for details.",
      ai_evaluation := "" }
    rfl { name := "A", score := some 4, comment := "ok" }
    (Or.inl (List.mem_cons_self _ _)) 4 rfl

/-- Claim C9 (counterexample): a decoded `candidate_name` that is truthy but
not a string — here the number 5 — is kept verbatim in the report instead of
being replaced by the caller-supplied name. -/
theorem claim9_counterexample :
    parseResponseData (.jobj [("candidate_name", .jnum 5)]) ⟨[], [], [], ["J"]⟩ "Alice" =
      .ok { candidate_name := .jnum 5,
            technical_scores := [],
            non_technical_scores := [],
            personal_assessment_scores := [],
            overall_level := "J",
            overall_comment := .jstr "See interview notes for details.",
            ai_evaluation := "" } ∧
    (∀ s : String, JsonVal.jnum 5 ≠ JsonVal.jstr s) :=
  ⟨by rfl, fun s h => by cases h⟩

/-- Claim C9 (amended): the report's `candidate_name` / `overall_comment`
take the decoded values exactly when those are present and truthy (any
truthy value, not only non-empty strings); otherwise they fall back to the
caller-supplied candidate name / the fixed placeholder comment. -/
theorem claim9_name_comment :
    ∀ (data : JsonVal) (p : Profile) (nm : String) (r : Report)
      (cn oc : Option JsonVal),
      parseResponseData data p nm = .ok r →
      getMember data "candidate_name" = .ok cn →
      getMember data "overall_comment" = .ok oc →
      (truthyOpt cn = true → ∃ v, cn = some v ∧ r.candidate_name = v) ∧
      (truthyOpt cn = false → r.candidate_name = .jstr nm) ∧
      (truthyOpt oc = true → ∃ v, oc = some v ∧ r.overall_comment = v) ∧
      (truthyOpt oc = false →
        r.overall_comment = .jstr "See interview notes for details.") := by
  intro data p nm r cn oc h hcn hoc
  rcases parseResponseData_ok h with ⟨ts, nts, pas, olv, cn2, oc2, _, _, _, _, h5, h6, hr⟩
  rw [hcn] at h5
  rw [hoc] at h6
  simp only [Except.ok.injEq] at h5 h6
  subst h5
  subst h6
  subst hr
  refine ⟨?_, ?_, ?_, ?_⟩
  · intro ht
    match cn, ht with
    | some v, ht =>
      refine ⟨v, rfl, ?_⟩
      simp only [truthyOpt] at ht
      simp [orDefault, ht]
  · intro ht
    match cn, ht with
    | none, _ => rfl
    | some v, ht =>
      simp only [truthyOpt] at ht
      simp [orDefault, ht]
  · intro ht
    match oc, ht with
    | some v, ht =>
      refine ⟨v, rfl, ?_⟩
      simp only [truthyOpt] at ht
      simp [orDefault, ht]
  · intro ht
    match oc, ht with
    | none, _ => rfl
    | some v, ht =>
      simp only [truthyOpt] at ht
      simp [orDefault, ht]

theorem claim9_witness :
    ∃ v, (some (JsonVal.jstr "Bob") : Option JsonVal) = some v ∧
      ({ candidate_name := .jstr "Bob",
         technical_scores := [],
         non_technical_scores := [],
         personal_assessment_scores := [],
         overall_level := "J",
         overall_comment := .jstr "See interview notes for details.",
         ai_evaluation := "" } : Report).candidate_name = v :=
  (claim9_name_comment (.jobj [("candidate_name", .jstr "Bob")]) ⟨[], [], [], ["J"]⟩ "Alice"
    { candidate_name := .jstr "Bob",
      technical_scores := [],
      non_technical_scores := [],
      personal_assessment_scores := [],
      overall_level := "J",
      overall_comment := .jstr "See interview notes for details.",
      ai_evaluation := "" }
    (some (.jstr "Bob")) none rfl rfl rfl).1 (by rfl)

/-- Claim C5 (counterexample): for the profile whose only (hence first)
overall level is the empty string and a decoded object with no
`overall_level`, the report's overall level is the hardcoded `"Medior"`, not
`P.overall_levels[0] = ""` — `overall_levels[0] || "Medior"` discards a falsy
first level. -/
theorem claim5_counterexample :
    parseResponseData (.jobj []) ⟨[], [], [], [""]⟩ "X" =
      .ok { candidate_name := .jstr "X",
            technical_scores := [],
            non_technical_scores := [],
            personal_assessment_scores := [],
            overall_level := "Medior",
            overall_comment := .jstr "See interview notes for details.",
            ai_evaluation := "" } ∧
    ("Medior" : String) ≠ "" :=
  ⟨by rfl, by decide⟩

/-- Claim C5 (amended): for every profile with non-empty `overall_levels` all
of which are non-empty strings, the report's overall level equals the decoded
`overall_level` exactly when that decoded value is a string belonging to
`overall_levels`, and equals `overall_levels[0]` in every other case
(missing, wrong type, or not in the allowed set). -/
theorem claim5_overall_level :
    ∀ (p : Profile) (data : JsonVal) (nm : String) (r : Report) (olv : Option JsonVal),
      parseResponseData data p nm = .ok r →
      getMember data "overall_level" = .ok olv →
      p.overall_levels ≠ [] →
      (∀ l ∈ p.overall_levels, l ≠ "") →
      (∀ s, olv = some (JsonVal.jstr s) → s ∈ p.overall_levels → r.overall_level = s) ∧
      ((¬∃ s, olv = some (JsonVal.jstr s) ∧ s ∈ p.overall_levels) →
        r.overall_level = p.overall_levels.headD "") := by
  intro p data nm r olv h holv hne hstr
  rcases parseResponseData_ok h with ⟨ts, nts, pas, olv2, cn, oc, _, _, _, h4, _, _, hr⟩
  rw [holv] at h4
  simp only [Except.ok.injEq] at h4
  subst h4
  subst hr
  have hdl : defaultLevelOf p.overall_levels = p.overall_levels.headD "" := by
    obtain ⟨l0, rest, hh⟩ := List.exists_cons_of_ne_nil hne
    have h0 : l0 ≠ "" := hstr l0 (by rw [hh]; exact List.mem_cons_self _ _)
    rw [hh]
    simp [defaultLevelOf, h0]
  constructor
  · intro s hs hmem
    subst hs
    have hsne : s ≠ "" := hstr s hmem
    have htr : truthyV (.jstr s) = true := by simp [truthyV, hsne]
    have hcont : p.overall_levels.contains s = true := by simpa using hmem
    show parseOverallLevel (some (.jstr s)) p.overall_levels = s
    simp [parseOverallLevel, orDefault, htr, hmem]
  · intro hno
    rw [← hdl]
    show parseOverallLevel olv p.overall_levels = defaultLevelOf p.overall_levels
    match olv with
    | none => simp [parseOverallLevel, orDefault]
    | some .jnull => simp [parseOverallLevel, orDefault, truthyV]
    | some (.jbool b) =>
      cases b with
      | false => simp [parseOverallLevel, orDefault, truthyV]
      | true => simp [parseOverallLevel, orDefault, truthyV]
    | some (.jnum q) =>
      by_cases hq : q = 0
      · simp [parseOverallLevel, orDefault, truthyV, hq]
      · simp [parseOverallLevel, orDefault, truthyV, hq]
    | some (.jstr s) =>
      by_cases hs : s = ""
      · simp [parseOverallLevel, orDefault, truthyV, hs]
      · have hmem : s ∉ p.overall_levels := fun hmem => hno ⟨s, rfl, hmem⟩
        simp [parseOverallLevel, orDefault, truthyV, hs, hmem]
    | some (.jarr xs) => simp [parseOverallLevel, orDefault, truthyV]
    | some (.jobj fs) => simp [parseOverallLevel, orDefault, truthyV]

theorem claim5_witness :
    ({ candidate_name := .jstr "X",
       technical_scores := [],
       non_technical_scores := [],
       personal_assessment_scores := [],
       overall_level := "Senior",
       overall_comment := .jstr "See interview notes for details.",
       ai_evaluation := "" } : Report).overall_level = "Senior" :=
  (claim5_overall_level ⟨[], [], [], ["Junior", "Senior"]⟩
    (.jobj [("overall_level", .jstr "Senior")]) "X"
    { candidate_name := .jstr "X",
      technical_scores := [],
      non_technical_scores := [],
      personal_assessment_scores := [],
      overall_level := "Senior",
      overall_comment := .jstr "See interview notes for details.",
      ai_evaluation := "" }
    (some (.jstr "Senior")) rfl rfl (by decide) (by decide)).1 "Senior" rfl (by decide)

/-- Claim C10 (counterexample): with an empty reply and a profile whose first
overall level is the empty string, the fully-defaulted report carries
`"Medior"`, not `profile.overall_levels[0] = ""`. -/
theorem claim10_counterexample :
    parseResponse "" ⟨[], [], [], [""]⟩ "X" =
      .ok { candidate_name := .jstr "X",
            technical_scores := [],
            non_technical_scores := [],
            personal_assessment_scores := [],
            overall_level := "Medior",
            overall_comment := .jstr "See interview notes for details.",
            ai_evaluation := "" } ∧
    ¬("Medior" : String) = "" :=
  ⟨by rfl, by decide⟩

/-- Claim C10 (amended): an empty backend reply never raises: normalization
returns the fully-defaulted report — each profile area with null score and
the placeholder comment, `candidate_name` the caller-supplied name, the
placeholder overall comment, and the overall level equal to
`profile.overall_levels[0]` when that first level is a non-empty string and
the hardcoded `"Medior"` otherwise (`defaultLevelOf`). -/
theorem claim10_empty_reply :
    ∀ (p : Profile) (nm : String),
      parseResponse "" p nm = .ok
        { candidate_name := .jstr nm,
          technical_scores := p.technical.map defaultEntry,
          non_technical_scores := p.non_technical.map defaultEntry,
          personal_assessment_scores :=
            if p.personal_assessment.isEmpty then []
            else p.personal_assessment.map defaultEntry,
          overall_level := defaultLevelOf p.overall_levels,
          overall_comment := .jstr "See interview notes for details.",
          ai_evaluation := "" } := by
  intro p nm
  have hcand : jsonParse (jsonCandidate "") = some (.jobj []) := by rfl
  have hts := @parseScores_missing_key "technical_scores" p.technical [] (by rfl)
  have hnts := @parseScores_missing_key "non_technical_scores" p.non_technical [] (by rfl)
  have hpas := @parseScores_missing_key "personal_assessment_scores" p.personal_assessment []
    (by rfl)
  by_cases hemp : p.personal_assessment.isEmpty
  · simp [parseResponse, hcand, parseResponseData, hts, hnts, hemp, getMember,
      lookupField, orDefault, parseOverallLevel]
  · simp [parseResponse, hcand, parseResponseData, hts, hnts, hpas, hemp, getMember,
      lookupField, orDefault, parseOverallLevel]

theorem afterFirstBrace_none {l : List Char} (h : ∀ c ∈ l, c ≠ '{') :
    afterFirstBrace l = none := by
  induction l with
  | nil => rfl
  | cons c cs ih =>
    have hc : c ≠ '{' := h c (List.mem_cons_self _ _)
    simp only [afterFirstBrace, if_neg hc]
    exact ih fun a ha => h a (List.mem_cons_of_mem c ha)

theorem braceSpan_none {l : List Char} (h : ∀ c ∈ l, c ≠ '{') :
    braceSpan l = none := by
  simp [braceSpan, afterFirstBrace_none h]

theorem mem_stripPre_orElse {a : Char} {ps r1 : List Char}
    (h : a ∈ (match stripPre ps r1 with | some r => r | none => r1)) : a ∈ r1 := by
  split at h
  · rename_i r2 hj
    exact (stripPre_append hj).symm ▸ List.mem_append_right _ h
  · exact h

theorem fenceHere_has_brace {l cap : List Char} (h : fenceHere l = some cap) :
    '{' ∈ l := by
  simp only [fenceHere] at h
  split at h
  · exact absurd h (by simp)
  · rename_i r1 h3
    split at h
    · rename_i body h4
      have hmem : '{' ∈ dropWsL (match stripPre "json".data r1 with
                                  | some r => r
                                  | none => r1) := by
        rw [h4]
        exact List.mem_cons_self _ _
      have hr1 : '{' ∈ r1 := mem_stripPre_orElse (dropWsL_subset hmem)
      rw [stripPre_append h3]
      exact List.mem_append_right _ hr1
    · exact absurd h (by simp)

theorem fenceSearch_none {l : List Char} (h : ∀ c ∈ l, c ≠ '{') :
    fenceSearch l = none := by
  induction l with
  | nil => rfl
  | cons c cs ih =>
    have hf : fenceHere (c :: cs) = none := by
      cases hfh : fenceHere (c :: cs) with
      | none => rfl
      | some cap => exact absurd rfl (h '{' (fenceHere_has_brace hfh))
    simp only [fenceSearch, hf]
    exact ih fun a ha => h a (List.mem_cons_of_mem c ha)

/-- Claim C2 (counterexample): the brace-free text `"123"` does not raise —
it is valid JSON, decodes to the number 123, and yields the fully-defaulted
report; conversely the text `"{x}"`, which does contain braces, raises
`ParseError`.  So "no braces" neither forces nor is required for
`ParseError`. -/
theorem claim2_counterexample :
    (∀ c ∈ ("123" : String).data, c ≠ '{' ∧ c ≠ '}') ∧
    parseResponse "123" ⟨["A"], [], [], ["J"]⟩ "X" =
      .ok { candidate_name := .jstr "X",
            technical_scores := [defaultEntry "A"],
            non_technical_scores := [],
            personal_assessment_scores := [],
            overall_level := "J",
            overall_comment := .jstr "See interview notes for details.",
            ai_evaluation := "" } ∧
    parseResponse "\x7bx\x7d" ⟨["A"], [], [], ["J"]⟩ "X" = .error NormError.parseError :=
  ⟨by decide, by rfl, by rfl⟩

/-- Claim C2 (amended): normalization raises `ParseError` exactly when the
decode candidate — the extracted string, with the empty string replaced by
`"{}"` — fails to decode as JSON; for text whose trimmed form contains no
`{` and no `}`, the candidate is the trimmed text itself, so such text
raises `ParseError` unless it is empty or is itself valid JSON. -/
theorem claim2_parseError_iff :
    (∀ (content : String) (p : Profile) (nm : String),
        parseResponse content p nm = .error NormError.parseError ↔
        jsonParse (jsonCandidate content) = none) ∧
    (∀ content : String, (∀ c ∈ trimL content.data, c ≠ '{' ∧ c ≠ '}') →
        extractJson content = String.mk (trimL content.data)) := by
  constructor
  · intro content p nm
    cases hj : jsonParse (jsonCandidate content) with
    | none => simp [parseResponse, hj]
    | some data =>
      cases hd : parseResponseData data p nm with
      | error e => simp [parseResponse, hj, hd]
      | ok r => simp [parseResponse, hj, hd]
  · intro content h
    have h1 : fenceSearch (trimL content.data) = none :=
      fenceSearch_none fun c hc => (h c hc).1
    have h2 : braceSpan (trimL content.data) = none :=
      braceSpan_none fun c hc => (h c hc).1
    simp [extractJson, h1, h2]

theorem claim2_witness :
    parseResponse "hello" ⟨[], [], [], []⟩ "N" = .error NormError.parseError ∧
    extractJson "hello" = String.mk (trimL ("hello" : String).data) :=
  ⟨(claim2_parseError_iff.1 "hello" ⟨[], [], [], []⟩ "N").mpr (by rfl),
   claim2_parseError_iff.2 "hello" (by decide)⟩

theorem afterFirstBrace_split {l s : List Char} (h : afterFirstBrace l = some s) :
    ∃ pre, l = pre ++ s ∧ (∀ c ∈ pre, c ≠ '{') ∧ ∃ t, s = '{' :: t := by
  induction l with
  | nil => simp [afterFirstBrace] at h
  | cons c cs ih =>
    by_cases hc : c = '{'
    · subst hc
      simp only [afterFirstBrace, eq_self_iff_true, if_true, Option.some.injEq] at h
      exact ⟨[], by simp [← h], by simp, cs, h.symm⟩
    · simp only [afterFirstBrace, if_neg hc] at h
      rcases ih h with ⟨pre, hl, hpre, t, hs⟩
      refine ⟨c :: pre, by simp [hl], ?_, t, hs⟩
      intro a ha
      rcases List.mem_cons.mp ha with ha | ha
      · exact ha ▸ hc
      · exact hpre a ha

theorem upToLastClose_none {l : List Char} (h : upToLastClose l = none) :
    ∀ c ∈ l, c ≠ '}' := by
  induction l with
  | nil => simp
  | cons c cs ih =>
    intro a ha
    simp only [upToLastClose] at h
    cases h2 : upToLastClose cs with
    | some r => rw [h2] at h; simp at h
    | none =>
      rw [h2] at h
      by_cases hc : c = '}'
      · rw [if_pos hc] at h; simp at h
      · rw [if_neg hc] at h
        rcases List.mem_cons.mp ha with ha | ha
        · exact ha ▸ hc
        · exact ih h2 a ha

theorem upToLastClose_split {l r : List Char} (h : upToLastClose l = some r) :
    ∃ post mid, l = r ++ post ∧ r = mid ++ ['}'] ∧ ∀ c ∈ post, c ≠ '}' := by
  induction l generalizing r with
  | nil => simp [upToLastClose] at h
  | cons c cs ih =>
    simp only [upToLastClose] at h
    cases h2 : upToLastClose cs with
    | some r2 =>
      rw [h2] at h
      simp only [Option.some.injEq] at h
      rcases ih h2 with ⟨post, mid, hcs, hr2, hpost⟩
      exact ⟨post, c :: mid, by simp [← h, hcs], by simp [← h, hr2], hpost⟩
    | none =>
      rw [h2] at h
      by_cases hc : c = '}'
      · rw [if_pos hc] at h
        simp only [Option.some.injEq] at h
        exact ⟨cs, [], by simp [← h, hc], by simp [← h, hc], upToLastClose_none h2⟩
      · rw [if_neg hc] at h
        simp at h

/-- Claim C6 (counterexample): on the text `"{} {}"` the second extraction
pattern yields the greedy span from the first `{` to the last `}` — the whole
text — not the first top-level `{...}` span `"{}"`; and on the empty text the
decode step is applied to the substitute `"{}"`, not to the chosen (empty)
candidate, which would fail to decode. -/
theorem claim6_counterexample :
    extractJson "\x7b\x7d \x7b\x7d" = "\x7b\x7d \x7b\x7d" ∧
    firstTopLevelSpan (trimL ("\x7b\x7d \x7b\x7d" : String).data) =
      some (("\x7b\x7d" : String).data) ∧
    ("\x7b\x7d \x7b\x7d" : String) ≠ "\x7b\x7d" ∧
    extractJson "" = "" ∧
    jsonParse "" = none ∧
    parseResponse "" ⟨[], [], [], ["J"]⟩ "N" =
      .ok { candidate_name := .jstr "N",
            technical_scores := [],
            non_technical_scores := [],
            personal_assessment_scores := [],
            overall_level := "J",
            overall_comment := .jstr "See interview notes for details.",
            ai_evaluation := "" } :=
  ⟨by rfl, by rfl, by decide, by rfl, by rfl, by rfl⟩

/-- Claim C6 (amended): extraction tries exactly three patterns in order —
the fenced code block, else the greedy span from the first `{` to the last
`}` of the trimmed text, else the whole trimmed text — and the decode step
applies to the chosen candidate with the empty candidate replaced by
`"{}"`. -/
theorem claim6_extraction_order :
    (∀ (text : String) (cap : List Char),
        fenceSearch (trimL text.data) = some cap → extractJson text = String.mk cap) ∧
    (∀ (text : String) (cap : List Char),
        fenceSearch (trimL text.data) = none → braceSpan (trimL text.data) = some cap →
        extractJson text = String.mk cap) ∧
    (∀ text : String,
        fenceSearch (trimL text.data) = none → braceSpan (trimL text.data) = none →
        extractJson text = String.mk (trimL text.data)) ∧
    (∀ (l cap : List Char), braceSpan l = some cap →
        ∃ pre mid post, l = pre ++ cap ++ post ∧ cap = '{' :: (mid ++ ['}']) ∧
          (∀ c ∈ pre, c ≠ '{') ∧ (∀ c ∈ post, c ≠ '}')) ∧
    (∀ content : String, extractJson content = "" → jsonCandidate content = "\x7b\x7d") ∧
    (∀ content : String, extractJson content ≠ "" → jsonCandidate content = extractJson content) := by
  refine ⟨?_, ?_, ?_, ?_, ?_, ?_⟩
  · intro text cap h
    simp [extractJson, h]
  · intro text cap h1 h2
    simp [extractJson, h1, h2]
  · intro text h1 h2
    simp [extractJson, h1, h2]
  · intro l cap h
    simp only [braceSpan] at h
    split at h
    · rename_i s rest ha
      cases hu : upToLastClose rest with
      | none => rw [hu] at h; simp at h
      | some r =>
        rw [hu] at h
        simp only [Option.some.injEq] at h
        rcases afterFirstBrace_split ha with ⟨pre, hl, hpre, t, hs⟩
        rcases upToLastClose_split hu with ⟨post, mid, hrest, hr, hpost⟩
        rw [List.cons.injEq] at hs
        refine ⟨pre, mid, post, ?_, by simp [← h, hr], hpre, hpost⟩
        have ht : t = r ++ post := by rw [← hs.2]; exact hrest
        rw [hl, hs.2, ht, ← h]
        simp
    · simp at h
  · intro content h
    simp [jsonCandidate, h]
  · intro content h
    simp [jsonCandidate, h]

theorem claim6_witness :
    extractJson "hello" = String.mk (trimL ("hello" : String).data) ∧
    jsonCandidate "abc" = extractJson "abc" :=
  ⟨claim6_extraction_order.2.2.1 "hello" (by rfl) (by rfl),
   claim6_extraction_order.2.2.2.2.2 "abc" (by decide)⟩
